import Mathlib

/-!
Shallow embedding of the `ring-rs` consistent-hashing ring (`src/lib.rs`).

Modelling conventions:
* Rust `HashMap` is modelled as an association list with unique keys;
  `insert` overwrites (prepend the new pair and drop the old key),
  `remove` drops the key.  Iteration order of the maps is never observed
  by the code except through `host_by_name.keys()` (order insignificant)
  and map sizes, which the association-list model preserves.
* The shared `Rc<RefCell<Host>>` cells are modelled by keying the host
  state (its mutable `load`) by the host's immutable `name`:
  `host_by_hash` maps a ring position to the owning host's name and
  `host_by_name` maps the name to the current load.
* `u64` loads are modelled as `Nat`; a subtraction that would underflow
  (a Rust panic in debug builds / wrap in release builds) is modelled by
  returning `none`.  Likewise an `Option::unwrap` panic or an
  out-of-bounds index panic makes the whole operation return `none`.
* `f64` arithmetic in `avg_load` is modelled as exact rational
  arithmetic; dividing the positive numerator by a zero host count
  (IEEE `+inf`, a nonfinite result) is modelled as `none`.  All concrete
  inputs used below are dyadic values on which the `f64` operations are
  exact, so the rational model agrees with the IEEE computation there.
* The Blake2b digest is out of scope (the spec treats the hasher as a
  replaceable 64-bit digest function); the ring logic is parametric in a
  hash function `String → Nat`.  `thash` below is a concrete injective
  stand-in used for evaluating concrete instances.
* `Vec::sort` (stable ascending sort) is modelled with
  `List.insertionSort (· ≤ ·)`; on natural numbers the ascending order
  of a multiset is unique, so any correct sort yields the same list.
* The unbounded `loop` in `get_least` is modelled with explicit fuel:
  `none` at every fuel amount means the loop never returns.
-/

namespace RingRs

/-- Rust `HashMap::insert`: overwrite the binding of key `k` by `v`. -/
def mapInsert {α β : Type} [BEq α] (m : List (α × β)) (k : α) (v : β) :
    List (α × β) :=
  (k, v) :: m.filter (fun p => !(p.1 == k))

/-- Rust `HashMap::remove`: drop the binding of key `k`. -/
def mapErase {α β : Type} [BEq α] (m : List (α × β)) (k : α) :
    List (α × β) :=
  m.filter (fun p => !(p.1 == k))

/-- Config from `src/lib.rs`: replication factor and load factor.
The `f64` load factor is modelled as a rational. -/
structure Config where
  replication_factor : Nat
  load : ℚ
deriving DecidableEq, Repr

/-- The `Default` impl for `Config`: 10 virtual nodes, load factor 1.25. -/
def Config.default : Config := ⟨10, 5/4⟩

/-- The `Ring` struct from `src/lib.rs`.  `hashes` is the sorted vector of
ring positions, `host_by_hash` indexes the owning host (by name) per
position, `host_by_name` carries each registered host's load, and `load`
is the incrementally maintained aggregate load. -/
structure Ring where
  config : Config
  hashes : List Nat
  host_by_hash : List (Nat × String)
  host_by_name : List (String × Nat)
  load : Nat
deriving DecidableEq, Repr

/-- Model of `Ring::new`. -/
def Ring.new (c : Config) : Ring := ⟨c, [], [], [], 0⟩

/-- Model of `Ring::replication_factor`. -/
def Ring.replication_factor (r : Ring) : Nat := r.config.replication_factor

/-- The ring positions `hash(name ++ i)` for `i < replication_factor` that
`add` inserts and `remove` recomputes. -/
def Ring.positions (r : Ring) (hash : String → Nat) (hostname : String) :
    List Nat :=
  (List.range r.replication_factor).map (fun i => hash (hostname ++ toString i))

/-- Model of `Ring::add`: no-op if the name is registered, otherwise
create the host with load 0, insert the derived positions into the
position index and the position vector, and re-sort the vector. -/
def Ring.add (r : Ring) (hash : String → Nat) (hostname : String) : Ring :=
  if (r.host_by_name.lookup hostname).isSome then r
  else
    let ps := r.positions hash hostname
    { r with
      host_by_name := mapInsert r.host_by_name hostname 0,
      host_by_hash := ps.foldl (fun m p => mapInsert m p hostname) r.host_by_hash,
      hashes := (r.hashes ++ ps).insertionSort (· ≤ ·) }

/-- One iteration of the loop in `Ring::remove`: delete the derived
position from the position index, then locate it in the position vector —
`position(..).unwrap()` panics (`none`) when it is absent — and delete it. -/
def removeStep (hash : String → Nat) (hostname : String)
    (acc : Option Ring) (i : Nat) : Option Ring :=
  acc.bind (fun r =>
    let p := hash (hostname ++ toString i)
    let r1 : Ring := { r with host_by_hash := mapErase r.host_by_hash p }
    if r1.hashes.contains p then
      some { r1 with hashes := r1.hashes.erase p }
    else
      none)

/-- Model of `Ring::remove`: recompute the derived positions, delete each
from both indexes (panicking — `none` — if one is missing from the
vector), then delete the membership entry. -/
def Ring.remove (r : Ring) (hash : String → Nat) (hostname : String) :
    Option Ring :=
  ((List.range r.replication_factor).foldl (removeStep hash hostname)
      (some r)).map
    (fun r1 => { r1 with host_by_name := mapErase r1.host_by_name hostname })

/-- The linear scan inside `Ring::search`: index of the first element that
is at least `key`, if any. -/
def searchAux (key : Nat) : List Nat → Option Nat
  | [] => none
  | h :: t => if key ≤ h then some 0 else (searchAux key t).map (· + 1)

/-- Model of `Ring::search`: first index whose hash is `≥ key`, else 0. -/
def Ring.search (r : Ring) (key : Nat) : Nat :=
  (searchAux key r.hashes).getD 0

/-- Model of `Ring::get`: empty ring gives `none`; otherwise successor
search, then look the owning host up by the found position.  The (in
consistent states unreachable) out-of-bounds index panic on
`self.hashes[idx]` is modelled as `none`. -/
def Ring.get (r : Ring) (hash : String → Nat) (key : String) :
    Option String :=
  if r.host_by_hash.isEmpty then none
  else
    match r.hashes.get? (r.search (hash key)) with
    | none => none
    | some hv => r.host_by_hash.lookup hv

/-- Model of `Ring::hosts`: the registered names. -/
def Ring.hosts (r : Ring) : List String := r.host_by_name.map Prod.fst

/-- Model of `Ring::set_load`: unknown host is a no-op; otherwise
`self.load -= host.load` (underflow panic modelled as `none`, unreachable
in consistent states), set the host load, and add it back. -/
def Ring.set_load (r : Ring) (hostname : String) (load : Nat) :
    Option Ring :=
  match r.host_by_name.lookup hostname with
  | none => some r
  | some old =>
    if r.load < old then none
    else
      some { r with
             load := r.load - old + load,
             host_by_name := mapInsert r.host_by_name hostname load }

/-- Model of `Ring::inc_load`: unknown host is a no-op; otherwise add one
to the aggregate and to the host's load. -/
def Ring.inc_load (r : Ring) (hostname : String) : Ring :=
  match r.host_by_name.lookup hostname with
  | none => r
  | some l =>
    { r with
      load := r.load + 1,
      host_by_name := mapInsert r.host_by_name hostname (l + 1) }

/-- Model of `Ring::decr_load`: unknown host is a no-op; otherwise
`self.load -= 1; host.load -= 1`, where either `u64` subtraction
underflows (panics in debug builds) when the counter is already 0 —
modelled as `none`. -/
def Ring.decr_load (r : Ring) (hostname : String) : Option Ring :=
  match r.host_by_name.lookup hostname with
  | none => some r
  | some l =>
    if r.load = 0 then none
    else if l = 0 then none
    else
      some { r with
             load := r.load - 1,
             host_by_name := mapInsert r.host_by_name hostname (l - 1) }

/-- Model of `Ring::avg_load`: `(load + 1) / host_count` in `f64`, the
(dead) `== 0.0` guard, times the load factor, ceiling.  With zero hosts
the `f64` division of the positive numerator by `0.0` yields `+inf` and
the final result is nonfinite: modelled as `none`. -/
def Ring.avg_load (r : Ring) : Option ℤ :=
  if r.host_by_name.length = 0 then none
  else
    let load : ℚ := (r.load + 1 : ℚ) / (r.host_by_name.length : ℚ)
    let load := if load = 0 then 1 else load
    some ⌈load * r.config.load⌉

/-- The capacity test in `Ring::get_least`:
`(host.load + 1) as f64 <= avg_load`.  A nonfinite (`+inf`) cap compares
greater than every finite load. -/
def capOK (avg : Option ℤ) (load : Nat) : Bool :=
  match avg with
  | none => true
  | some a => decide ((load + 1 : ℤ) ≤ a)

/-- The unbounded `loop` in `Ring::get_least`, with explicit fuel: look
the host owning position `idx` up (an `unwrap` panic is `none`), return
it if its incremented load is within the cap, otherwise advance to the
next position, wrapping at `host_by_hash.len()`.  Exhausted fuel is
`none`: the loop has not returned within that many iterations. -/
def getLeastLoop (r : Ring) (avg : Option ℤ) : Nat → Nat → Option String
  | _, 0 => none
  | idx, fuel + 1 =>
    match r.hashes.get? idx with
    | none => none
    | some hv =>
      match r.host_by_hash.lookup hv with
      | none => none
      | some name =>
        match r.host_by_name.lookup name with
        | none => none
        | some load =>
          if capOK avg load then some name
          else
            getLeastLoop r avg
              (if r.host_by_hash.length ≤ idx + 1 then 0 else idx + 1) fuel

/-- Model of `Ring::get_least`: empty ring gives `none`; otherwise
compute the cap once, successor-search the key, and run the scan loop. -/
def Ring.get_least (r : Ring) (hash : String → Nat) (key : String)
    (fuel : Nat) : Option String :=
  if r.host_by_hash.isEmpty then none
  else getLeastLoop r r.avg_load (r.search (hash key)) fuel

/-- Sum of the registered hosts' load counters (what the aggregate `load`
field is supposed to equal). -/
def Ring.sumLoads (r : Ring) : Nat := (r.host_by_name.map Prod.snd).sum

/-- The ring positions currently resolving to `name`: entries of the
sorted vector whose index entry names that host. -/
def resolving (r : Ring) (name : String) : List Nat :=
  r.hashes.filter (fun p => r.host_by_hash.lookup p == some name)

/-- Concrete stand-in hash used to evaluate the model on concrete
inputs (the digest itself is out of the spec's scope). -/
def thash (s : String) : Nat :=
  s.data.foldl (fun a c => a * 256 + c.toNat) 0

def c6r : Ring := ⟨Config.default, [3, 5, 9], [(3, "a"), (5, "b"), (9, "c")], [("a", 0), ("b", 0), ("c", 0)], 0⟩

def c4r : Ring :=
  (((Ring.new Config.default).add thash "a").add thash "b").inc_load "a"

/-- Modelled from the claim's words for C5 (not from the source): the
claimed formula, with the quotient floored to at least 1, the result
floored to at least 1, and a finite value even with no hosts (the
rational convention `x / 0 = 0` is then floored to 1). -/
def avg_load_claimed (r : Ring) : ℤ :=
  max 1 ⌈(max 1 ((r.load + 1 : ℚ) / (r.host_by_name.length : ℚ))) * r.config.load⌉

def c5r : Ring := ((Ring.new ⟨10, 5/4⟩).add thash "a").add thash "b"

def c1cfg : Config := ⟨1, 1/2⟩

def c1ring : Ring := ⟨c1cfg, [24880], [(24880, "a")], [("a", 10)], 10⟩

def c3r1 : Ring := (Ring.new Config.default).add thash "a"

def c3r2 : Ring := { c3r1 with host_by_name := [("a", 5)], load := 5 }

def c3r3 : Ring := ⟨Config.default, [], [], [], 5⟩

def c7r0 : Ring := Ring.new ⟨2, 5/4⟩

end RingRs
namespace RingRs

lemma searchAux_some_lt (key : Nat) :
    ∀ (l : List Nat) (i : Nat), searchAux key l = some i → i < l.length := by
  intro l
  induction l with
  | nil => intro i h; simp [searchAux] at h
  | cons x t ih =>
    intro i h
    rw [searchAux] at h
    split at h
    · cases h
      simp
    · obtain ⟨j, hj, rfl⟩ := Option.map_eq_some'.mp h
      have := ih j hj
      simp only [List.length_cons]
      omega

lemma searchAux_none_iff (key : Nat) :
    ∀ l : List Nat, searchAux key l = none ↔ ∀ x ∈ l, x < key := by
  intro l
  induction l with
  | nil => simp [searchAux]
  | cons x t ih =>
    rw [searchAux]
    split
    · refine iff_of_false (by simp) ?_
      intro hall
      have := hall x (by simp)
      omega
    · rw [Option.map_eq_none', ih]
      constructor
      · intro hall y hy
        rcases List.mem_cons.mp hy with rfl | hy
        · omega
        · exact hall y hy
      · intro hall y hy
        exact hall y (List.mem_cons_of_mem _ hy)

lemma searchAux_some_ge (key : Nat) :
    ∀ (l : List Nat) (i : Nat), searchAux key l = some i →
      key ≤ l.getD i 0 := by
  intro l
  induction l with
  | nil => intro i h; simp [searchAux] at h
  | cons x t ih =>
    intro i h
    rw [searchAux] at h
    split at h
    · cases h
      simpa using ‹key ≤ x›
    · obtain ⟨j, hj, rfl⟩ := Option.map_eq_some'.mp h
      simpa using ih j hj

lemma searchAux_some_min (key : Nat) :
    ∀ l : List Nat, List.Sorted (· ≤ ·) l →
      ∀ i, searchAux key l = some i →
        ∀ x ∈ l, key ≤ x → l.getD i 0 ≤ x := by
  intro l
  induction l with
  | nil => intro _ i h; simp [searchAux] at h
  | cons a t ih =>
    intro hs i h x hx hkx
    rw [searchAux] at h
    split at h
    · cases h
      rcases List.mem_cons.mp hx with rfl | hx
      · simp
      · simpa using (List.rel_of_sorted_cons hs) x hx
    · obtain ⟨j, hj, rfl⟩ := Option.map_eq_some'.mp h
      rcases List.mem_cons.mp hx with rfl | hx
      · omega
      · simpa using ih hs.of_cons j hj x hx hkx

end RingRs
namespace RingRs

/-- C6: on a nonempty sorted ring, `search` returns an in-range index; if
some stored hash is at least the query it is the index of the smallest
such hash, and otherwise it wraps to index 0. -/
theorem search_successor (r : Ring) (key : Nat)
    (hs : List.Sorted (· ≤ ·) r.hashes) (hne : r.hashes ≠ []) :
    r.search key < r.hashes.length ∧
      ((∃ x ∈ r.hashes, key ≤ x) →
        key ≤ r.hashes.getD (r.search key) 0 ∧
          ∀ x ∈ r.hashes, key ≤ x → r.hashes.getD (r.search key) 0 ≤ x) ∧
      ((∀ x ∈ r.hashes, x < key) → r.search key = 0) := by
  unfold Ring.search
  cases hsa : searchAux key r.hashes with
  | none =>
    refine ⟨?_, ?_, ?_⟩
    · simpa using List.length_pos.mpr hne
    · intro hex
      obtain ⟨x, hx, hkx⟩ := hex
      have := (searchAux_none_iff key r.hashes).mp hsa x hx
      omega
    · intro _
      simp
  | some i =>
    refine ⟨?_, ?_, ?_⟩
    · simpa using searchAux_some_lt key r.hashes i hsa
    · intro _
      exact ⟨by simpa using searchAux_some_ge key r.hashes i hsa,
        by simpa using searchAux_some_min key r.hashes hs i hsa⟩
    · intro hall
      have := (searchAux_none_iff key r.hashes).mpr hall
      rw [hsa] at this
      cases this

/-- Witness for C6 at a concrete sorted three-position ring and query 4. -/
theorem search_successor_witness :
    c6r.search 4 < c6r.hashes.length ∧
      ((∃ x ∈ c6r.hashes, 4 ≤ x) →
        4 ≤ c6r.hashes.getD (c6r.search 4) 0 ∧
          ∀ x ∈ c6r.hashes, 4 ≤ x → c6r.hashes.getD (c6r.search 4) 0 ≤ x) ∧
      ((∀ x ∈ c6r.hashes, x < 4) → c6r.search 4 = 0) :=
  search_successor c6r 4 (by decide) (by decide)

end RingRs
namespace RingRs

lemma lookup_mapInsert_self {α β : Type} [BEq α] [LawfulBEq α]
    (m : List (α × β)) (k : α) (v : β) :
    (mapInsert m k v).lookup k = some v := by
  simp [mapInsert, List.lookup]

lemma lookup_filter_key_ne {α β : Type} [BEq α] [LawfulBEq α]
    (m : List (α × β)) (k q : α) (h : q ≠ k) :
    (m.filter (fun p => !(p.1 == k))).lookup q = m.lookup q := by
  induction m with
  | nil => rfl
  | cons a t ih =>
    obtain ⟨x, b⟩ := a
    simp only [List.filter]
    by_cases hxk : x = k
    · have h1 : (!(x == k)) = false := by simp [hxk]
      have h2 : (q == x) = false := by
        subst hxk
        simpa using h
      rw [h1]
      simp only [List.lookup, h2]
      exact ih
    · have h1 : (!(x == k)) = true := by simp [hxk]
      rw [h1]
      cases hqx : q == x with
      | true => simp only [List.lookup, hqx]
      | false =>
        simp only [List.lookup, hqx]
        exact ih

lemma lookup_mapInsert_ne {α β : Type} [BEq α] [LawfulBEq α]
    (m : List (α × β)) (k q : α) (v : β) (h : q ≠ k) :
    (mapInsert m k v).lookup q = m.lookup q := by
  have hqk : (q == k) = false := by simpa using h
  simp only [mapInsert, List.lookup, hqk]
  exact lookup_filter_key_ne m k q h

lemma lookup_mapErase_ne {α β : Type} [BEq α] [LawfulBEq α]
    (m : List (α × β)) (k q : α) (h : q ≠ k) :
    (mapErase m k).lookup q = m.lookup q :=
  lookup_filter_key_ne m k q h

lemma lookup_mapErase_self {α β : Type} [BEq α] [LawfulBEq α]
    (m : List (α × β)) (k : α) :
    (mapErase m k).lookup k = none := by
  induction m with
  | nil => rfl
  | cons a t ih =>
    obtain ⟨x, b⟩ := a
    simp only [mapErase, List.filter] at ih ⊢
    by_cases hxk : x = k
    · have h1 : (!(x == k)) = false := by simp [hxk]
      rw [h1]
      exact ih
    · have h1 : (!(x == k)) = true := by simp [hxk]
      have h2 : (k == x) = false := by
        simp
        exact fun hh => hxk hh.symm
      rw [h1]
      simp only [List.lookup, h2]
      exact ih

end RingRs
namespace RingRs

lemma add_of_isSome (r : Ring) (hash : String → Nat) (h : String)
    (hc : (r.host_by_name.lookup h).isSome) : r.add hash h = r := by
  rw [Ring.add]
  simp [hc]

lemma isSome_lookup_add (r : Ring) (hash : String → Nat) (h : String) :
    ((r.add hash h).host_by_name.lookup h).isSome := by
  rw [Ring.add]
  by_cases hc : (r.host_by_name.lookup h).isSome
  · simp [hc]
  · simp [hc, lookup_mapInsert_self]

/-- C8: adding the same host twice yields the same ring state as adding
it once. -/
theorem add_idempotent (r : Ring) (hash : String → Nat) (h : String) :
    (r.add hash h).add hash h = r.add hash h :=
  add_of_isSome _ hash h (isSome_lookup_add r hash h)

/-- C9: on a fresh ring with no hosts, both `get` and `get_least` return
none for every key. -/
theorem empty_ring_lookups (c : Config) (hash : String → Nat) (key : String)
    (fuel : Nat) :
    (Ring.new c).get hash key = none ∧
      (Ring.new c).get_least hash key fuel = none :=
  ⟨rfl, rfl⟩

/-- C2 failing input: removing a never-registered host is not a no-op:
the derived position is absent from the position vector, so
`position(..).unwrap()` is an unwrap of `None` — a panic, modelled as
the whole operation returning `none`. -/
theorem remove_unregistered_panics (hash : String → Nat) :
    (Ring.new Config.default).remove hash "a" = none := rfl

/-- C4 failing input: `decr_load` on an unknown host is a no-op, but on a
registered host whose load is zero the `u64` `host.load -= 1`
underflows (a panic in debug builds, a wrap to 2^64 - 1 in release
builds), modelled as `none`. -/
theorem decr_load_zero_underflows :
    c4r.decr_load "zzz" = some c4r ∧ c4r.decr_load "b" = none :=
  ⟨rfl, rfl⟩

end RingRs
namespace RingRs

lemma lookup_foldl_mapInsert_not_mem {α β : Type} [BEq α] [LawfulBEq α]
    (ps : List α) (v : β) (m : List (α × β)) (q : α) (hq : q ∉ ps) :
    (ps.foldl (fun acc p => mapInsert acc p v) m).lookup q = m.lookup q := by
  induction ps generalizing m with
  | nil => rfl
  | cons p t ih =>
    simp only [List.foldl_cons]
    rw [ih _ (fun hh => hq (List.mem_cons_of_mem _ hh)),
      lookup_mapInsert_ne _ _ _ _ (fun hh => hq (by simp [hh]))]

lemma lookup_foldl_mapInsert_mem {α β : Type} [BEq α] [LawfulBEq α]
    (ps : List α) (v : β) (m : List (α × β)) (q : α) (hq : q ∈ ps) :
    (ps.foldl (fun acc p => mapInsert acc p v) m).lookup q = some v := by
  induction ps generalizing m with
  | nil => cases hq
  | cons p t ih =>
    simp only [List.foldl_cons]
    by_cases hqt : q ∈ t
    · exact ih _ hqt
    · have hqp : q = p := by
        rcases List.mem_cons.mp hq with hh | hh
        · exact hh
        · exact absurd hh hqt
      subst hqp
      rw [lookup_foldl_mapInsert_not_mem t v _ q hqt, lookup_mapInsert_self]

lemma foldl_mapInsert_ne_nil {α β : Type} [BEq α]
    (ps : List α) (v : β) (m : List (α × β)) (h : ps ≠ []) :
    ps.foldl (fun acc p => mapInsert acc p v) m ≠ [] := by
  induction ps generalizing m with
  | nil => cases h rfl
  | cons p t ih =>
    simp only [List.foldl_cons]
    cases t with
    | nil => simp [mapInsert]
    | cons a b => exact ih _ (by simp)

lemma search_lt_length (r : Ring) (key : Nat) (hne : r.hashes ≠ []) :
    r.search key < r.hashes.length := by
  unfold Ring.search
  cases hsa : searchAux key r.hashes with
  | none => simpa using List.length_pos.mpr hne
  | some i => simpa using searchAux_some_lt key r.hashes i hsa

lemma get_of_all_entries (r : Ring) (hash : String → Nat) (key : String)
    (h : String) (hne : r.hashes ≠ []) (hbh : r.host_by_hash ≠ [])
    (hmem : ∀ x ∈ r.hashes, r.host_by_hash.lookup x = some h) :
    r.get hash key = some h := by
  unfold Ring.get
  have hemp : r.host_by_hash.isEmpty = false := by
    simpa [List.isEmpty_iff] using hbh
  have hidx : r.search (hash key) < r.hashes.length :=
    search_lt_length r (hash key) hne
  rw [hemp]
  simp only [Bool.false_eq_true, if_false]
  rw [List.get?_eq_getElem?, List.getElem?_eq_getElem hidx]
  exact hmem _ (List.getElem_mem hidx)

/-- C10: on a ring holding exactly one host `h` (added to a fresh ring,
with at least one virtual node), `get` returns `h` for every key. -/
theorem single_host_get (c : Config) (hash : String → Nat) (h key : String)
    (hrf : 1 ≤ c.replication_factor) :
    ((Ring.new c).add hash h).get hash key = some h := by
  have hps : (Ring.new c).positions hash h ≠ [] := by
    have : ((Ring.new c).positions hash h).length = c.replication_factor := by
      simp [Ring.positions, Ring.replication_factor, Ring.new]
    intro hnil
    rw [hnil] at this
    simp at this
    omega
  have hadd : (Ring.new c).add hash h =
      { config := c,
        hashes := (([] : List Nat) ++ (Ring.new c).positions hash h).insertionSort (· ≤ ·),
        host_by_hash := ((Ring.new c).positions hash h).foldl
          (fun m p => mapInsert m p h) [],
        host_by_name := mapInsert [] h 0,
        load := 0 } := rfl
  refine get_of_all_entries _ hash key h ?_ ?_ ?_
  · rw [hadd]
    simp only [List.nil_append]
    intro hnil
    have := congrArg List.length hnil
    simp only [List.length_insertionSort, List.length_nil] at this
    exact hps (List.length_eq_zero.mp this)
  · rw [hadd]
    exact foldl_mapInsert_ne_nil _ _ _ hps
  · rw [hadd]
    intro x hx
    simp only [List.nil_append, List.mem_insertionSort] at hx
    exact lookup_foldl_mapInsert_mem _ _ _ _ hx

/-- Witness for C10: the default config, the concrete stand-in hash, host
"a" and key "anything". -/
theorem single_host_get_witness :
    ((Ring.new Config.default).add thash "a").get thash "anything" = some "a" :=
  single_host_get Config.default thash "a" "anything" (by decide)

end RingRs
namespace RingRs

lemma avg_load_none (r : Ring) (hn : r.host_by_name.length = 0) :
    r.avg_load = none := by
  simp [Ring.avg_load, hn]

lemma avg_load_eq (r : Ring) (hn : r.host_by_name.length ≠ 0) :
    r.avg_load =
      some ⌈((r.load + 1 : ℚ) / (r.host_by_name.length : ℚ)) * r.config.load⌉ := by
  have hq : ((r.load + 1 : ℚ) / (r.host_by_name.length : ℚ)) ≠ 0 := by
    have h1 : (0 : ℚ) < (r.load + 1 : ℚ) := by positivity
    have h2 : (0 : ℚ) < (r.host_by_name.length : ℚ) := by
      have := Nat.pos_of_ne_zero hn
      exact_mod_cast this
    exact ne_of_gt (div_pos h1 h2)
  simp [Ring.avg_load, hn, hq]

/-- C5 counterexample: with two fresh hosts and the default load factor
the code returns ceil(0.5 * 1.25) = 1 (every `f64` step is exact there)
while the claimed formula, flooring the quotient to 1, gives 2; and with
no hosts the code's division by zero makes the result nonfinite (+inf,
modelled `none`), not a finite value of at least 1. -/
theorem avg_load_claim_false :
    c5r.avg_load = some 1 ∧ avg_load_claimed c5r = 2 ∧
      c5r.avg_load ≠ some (avg_load_claimed c5r) ∧
      (Ring.new Config.default).avg_load = none := by
  have hload : c5r.load = 0 := rfl
  have hlen : c5r.host_by_name.length = 2 := rfl
  have hf : c5r.config.load = 5/4 := rfl
  have h1 : c5r.avg_load = some 1 := by
    rw [avg_load_eq c5r (by rw [hlen]; omega), hload, hlen, hf]
    norm_num
    rw [Int.ceil_eq_iff]
    norm_num
  have h2 : avg_load_claimed c5r = 2 := by
    unfold avg_load_claimed
    rw [hload, hlen, hf]
    norm_num
    rw [Int.ceil_eq_iff]
    norm_num
  refine ⟨h1, h2, ?_, avg_load_none _ rfl⟩
  rw [h1, h2]
  simp

/-- C5 amended: `avg_load` computes ceil(((load + 1) / host_count) *
load_factor) with no flooring of either term — the `== 0.0` guard is
unreachable when hosts exist; with no hosts the result is nonfinite
(+inf); with at least one host and a load factor of at least 1 the
result is an integer of at least 1. -/
theorem avg_load_amended (r : Ring) (hf : 1 ≤ r.config.load) :
    (r.host_by_name.length = 0 → r.avg_load = none) ∧
      (r.host_by_name.length ≠ 0 →
        r.avg_load =
          some ⌈((r.load + 1 : ℚ) / (r.host_by_name.length : ℚ)) * r.config.load⌉ ∧
          ∀ v, r.avg_load = some v → 1 ≤ v) := by
  refine ⟨avg_load_none r, fun hn => ⟨avg_load_eq r hn, fun v hv => ?_⟩⟩
  rw [avg_load_eq r hn] at hv
  have h1 : (0 : ℚ) < (r.load + 1 : ℚ) := by positivity
  have h2 : (0 : ℚ) < (r.host_by_name.length : ℚ) := by
    exact_mod_cast Nat.pos_of_ne_zero hn
  have hq : (0 : ℚ) < ((r.load + 1 : ℚ) / (r.host_by_name.length : ℚ)) :=
    div_pos h1 h2
  have hfp : (0 : ℚ) < r.config.load := lt_of_lt_of_le one_pos hf
  have hpos : (0 : ℚ) <
      ((r.load + 1 : ℚ) / (r.host_by_name.length : ℚ)) * r.config.load :=
    mul_pos hq hfp
  have := Int.ceil_pos.mpr hpos
  cases hv
  omega

/-- Witness for C5's amended theorem at the two-host ring: the code value
is 1, which is at least 1. -/
theorem avg_load_amended_witness :
    (c5r.host_by_name.length = 0 → c5r.avg_load = none) ∧
      (c5r.host_by_name.length ≠ 0 →
        c5r.avg_load =
          some ⌈((c5r.load + 1 : ℚ) / (c5r.host_by_name.length : ℚ)) * c5r.config.load⌉ ∧
          ∀ v, c5r.avg_load = some v → 1 ≤ v) :=
  avg_load_amended c5r (by norm_num [show c5r.config.load = 5/4 from rfl])

end RingRs
namespace RingRs

/-- C1 failing input: one host at load 10 with load factor 0.5 (every
`f64` step exact): the cap is ceil(11 * 0.5) = 6, the single host fails
`load + 1 <= cap` at every position, and the loop never returns — there
is no full-sweep fallback in the code.  The fuel-indexed model returns
`none` at every fuel amount. -/
theorem get_least_no_fallback :
    ((Ring.new c1cfg).add thash "a").set_load "a" 10 = some c1ring ∧
      ∀ fuel, c1ring.get_least thash "k" fuel = none := by
  refine ⟨rfl, fun fuel => ?_⟩
  have havg : c1ring.avg_load = some 6 := by
    rw [avg_load_eq c1ring (by simp [c1ring])]
    have h1 : c1ring.load = 10 := rfl
    have h2 : c1ring.host_by_name.length = 1 := rfl
    have h3 : c1ring.config.load = 1/2 := rfl
    rw [h1, h2, h3]
    norm_num
    rw [Int.ceil_eq_iff]
    norm_num
  show getLeastLoop c1ring c1ring.avg_load 0 fuel = none
  rw [havg]
  induction fuel with
  | zero => rfl
  | succ n ih =>
    rw [show getLeastLoop c1ring (some 6) 0 (n + 1) =
        getLeastLoop c1ring (some 6) 0 n from rfl]
    exact ih

end RingRs
namespace RingRs

/-- C3 failing input: add "a", set its load to 5, then remove "a".
`remove` deletes the host and all its positions but never subtracts the
host's load from the aggregate `load` field, which stays at 5 while the
sum over the (now zero) registered hosts is 0 — the claimed invariant is
broken right after `remove`. -/
theorem aggregate_load_remove_bug :
    c3r1.set_load "a" 5 = some c3r2 ∧
      c3r2.remove thash "a" = some c3r3 ∧
      c3r3.hosts = [] ∧ c3r3.sumLoads = 0 ∧ c3r3.load = 5 :=
  ⟨rfl, rfl, rfl, rfl, rfl⟩

end RingRs
namespace RingRs

lemma lookup_foldl_mapErase_not_mem {α β : Type} [BEq α] [LawfulBEq α]
    (ks : List α) (m : List (α × β)) (q : α) (hq : q ∉ ks) :
    (ks.foldl mapErase m).lookup q = m.lookup q := by
  induction ks generalizing m with
  | nil => rfl
  | cons k t ih =>
    simp only [List.foldl_cons]
    rw [ih _ (fun hh => hq (List.mem_cons_of_mem _ hh)),
      lookup_mapErase_ne _ _ _ (fun hh => hq (by simp [hh]))]

lemma lookup_foldl_mapErase_mem {α β : Type} [BEq α] [LawfulBEq α]
    (ks : List α) (m : List (α × β)) (q : α) (hq : q ∈ ks) :
    (ks.foldl mapErase m).lookup q = none := by
  induction ks generalizing m with
  | nil => cases hq
  | cons k t ih =>
    simp only [List.foldl_cons]
    by_cases hqt : q ∈ t
    · exact ih _ hqt
    · have hqk : q = k := by
        rcases List.mem_cons.mp hq with hh | hh
        · exact hh
        · exact absurd hh hqt
      subst hqk
      rw [lookup_foldl_mapErase_not_mem t _ q hqt, lookup_mapErase_self]

lemma remove_fold (hash : String → Nat) (h : String) :
    ∀ (il : List Nat) (r : Ring) (rest : List Nat),
      List.Perm r.hashes ((il.map (fun i => hash (h ++ toString i))) ++ rest) →
      ∃ r2, il.foldl (removeStep hash h) (some r) = some r2 ∧
        r2.host_by_name = r.host_by_name ∧
        r2.config = r.config ∧
        List.Perm r2.hashes rest ∧
        r2.host_by_hash =
          (il.map (fun i => hash (h ++ toString i))).foldl mapErase
            r.host_by_hash := by
  intro il
  induction il with
  | nil =>
    intro r rest hperm
    exact ⟨r, rfl, rfl, rfl, by simpa using hperm, rfl⟩
  | cons i t ih =>
    intro r rest hperm
    simp only [List.map_cons, List.cons_append] at hperm
    have hmem : hash (h ++ toString i) ∈ r.hashes :=
      hperm.mem_iff.mpr (by simp)
    have hcont : r.hashes.contains (hash (h ++ toString i)) = true := by
      simpa using hmem
    have hstep : removeStep hash h (some r) i =
        some { r with
               host_by_hash := mapErase r.host_by_hash (hash (h ++ toString i)),
               hashes := r.hashes.erase (hash (h ++ toString i)) } := by
      simp [removeStep, hcont, hmem]
    have hperm2 : List.Perm (r.hashes.erase (hash (h ++ toString i)))
        ((t.map (fun j => hash (h ++ toString j))) ++ rest) := by
      have := hperm.erase (hash (h ++ toString i))
      rwa [List.erase_cons_head] at this
    obtain ⟨r2, hfold, hn, hc, hperm3, hbh⟩ :=
      ih { r with
           host_by_hash := mapErase r.host_by_hash (hash (h ++ toString i)),
           hashes := r.hashes.erase (hash (h ++ toString i)) } rest hperm2
    refine ⟨r2, ?_, hn, hc, hperm3, ?_⟩
    · rw [List.foldl_cons, hstep]
      exact hfold
    · rw [hbh]
      simp [List.map_cons, List.foldl_cons]

lemma not_mem_hosts_mapErase (m : List (String × Nat)) (h : String) :
    h ∉ (mapErase m h).map Prod.fst := by
  intro hc
  obtain ⟨⟨x, v⟩, hmem, hx⟩ := List.mem_map.mp hc
  dsimp at hx
  subst hx
  have := List.of_mem_filter hmem
  simp at this

end RingRs
namespace RingRs

/-- C7: with an unregistered name whose derived positions are fresh
(no collisions with existing positions, and no existing index entry
resolves to the name), `add` makes exactly `replication_factor` ring
positions resolve to the host; a subsequent `remove` succeeds, leaves no
position resolving to it, and drops it from `hosts()`. -/
theorem add_remove_complete (r : Ring) (hash : String → Nat) (h : String)
    (hreg : r.host_by_name.lookup h = none)
    (hnodup : (r.positions hash h).Nodup)
    (hfresh : ∀ p ∈ r.positions hash h, p ∉ r.hashes)
    (hnew : ∀ p, r.host_by_hash.lookup p ≠ some h) :
    (resolving (r.add hash h) h).length = r.replication_factor ∧
      ∃ r2, (r.add hash h).remove hash h = some r2 ∧
        resolving r2 h = [] ∧ h ∉ r2.hosts := by
  have hregb : (r.host_by_name.lookup h).isSome = false := by
    rw [hreg]
    rfl
  have hadd : r.add hash h =
      { r with
        host_by_name := mapInsert r.host_by_name h 0,
        host_by_hash := (r.positions hash h).foldl
          (fun m p => mapInsert m p h) r.host_by_hash,
        hashes := (r.hashes ++ r.positions hash h).insertionSort (· ≤ ·) } := by
    rw [Ring.add]
    simp [hregb]
  have hlookup1 : ∀ q ∈ r.positions hash h,
      (r.add hash h).host_by_hash.lookup q = some h := by
    rw [hadd]
    intro q hq
    exact lookup_foldl_mapInsert_mem _ _ _ _ hq
  have hlookup2 : ∀ q, q ∉ r.positions hash h →
      (r.add hash h).host_by_hash.lookup q = r.host_by_hash.lookup q := by
    rw [hadd]
    intro q hq
    exact lookup_foldl_mapInsert_not_mem _ _ _ _ hq
  have hlenpos : (r.positions hash h).length = r.replication_factor := by
    simp [Ring.positions]
  constructor
  · -- exactly replication_factor positions resolve to h after add
    have hperm : List.Perm (r.add hash h).hashes
        (r.hashes ++ r.positions hash h) := by
      rw [hadd]
      exact List.perm_insertionSort _ _
    unfold resolving
    rw [(hperm.filter _).length_eq, List.filter_append]
    have e1 : r.hashes.filter
        (fun p => (r.add hash h).host_by_hash.lookup p == some h) = [] := by
      refine List.filter_eq_nil_iff.mpr (fun a ha => ?_)
      have hnp : a ∉ r.positions hash h := fun hc => hfresh a hc ha
      simp [hlookup2 a hnp, hnew a]
    have e2 : (r.positions hash h).filter
        (fun p => (r.add hash h).host_by_hash.lookup p == some h) =
        r.positions hash h := by
      refine List.filter_eq_self.mpr (fun a ha => ?_)
      simp [hlookup1 a ha]
    rw [e1, e2, List.nil_append, hlenpos]
  · -- remove then succeeds and erases every trace of h
    have hconfig : (r.add hash h).replication_factor = r.replication_factor := by
      rw [hadd]
      rfl
    have hmap : (List.range r.replication_factor).map
        (fun i => hash (h ++ toString i)) = r.positions hash h := rfl
    have hperm0 : List.Perm (r.add hash h).hashes
        ((List.range r.replication_factor).map
          (fun i => hash (h ++ toString i)) ++ r.hashes) := by
      rw [hmap, hadd]
      exact (List.perm_insertionSort _ _).trans List.perm_append_comm
    obtain ⟨r2, hfold, hn, hc, hperm3, hbh⟩ :=
      remove_fold hash h (List.range r.replication_factor)
        (r.add hash h) r.hashes hperm0
    have hrem : (r.add hash h).remove hash h =
        some { r2 with host_by_name := mapErase r2.host_by_name h } := by
      rw [Ring.remove, hconfig, hfold]
      rfl
    refine ⟨_, hrem, ?_, ?_⟩
    · -- no remaining position resolves to h
      refine List.filter_eq_nil_iff.mpr (fun a ha => ?_)
      have hlk : r2.host_by_hash.lookup a ≠ some h := by
        rw [hbh, hmap]
        by_cases hmemp : a ∈ r.positions hash h
        · rw [lookup_foldl_mapErase_mem _ _ _ hmemp]
          simp
        · rw [lookup_foldl_mapErase_not_mem _ _ _ hmemp,
            hlookup2 a hmemp]
          exact hnew a
      simpa using hlk
    · exact not_mem_hosts_mapErase r2.host_by_name h

/-- Witness for C7 on a fresh two-replica ring and host "a": both derived
positions are fresh and distinct, and the conclusion is instantiated. -/
theorem add_remove_complete_witness :
    (resolving (c7r0.add thash "a") "a").length = c7r0.replication_factor ∧
      ∃ r2, (c7r0.add thash "a").remove thash "a" = some r2 ∧
        resolving r2 "a" = [] ∧ "a" ∉ r2.hosts :=
  add_remove_complete c7r0 thash "a" rfl (by decide) (by decide)
    (fun p hc => by simp [c7r0, Ring.new, List.lookup] at hc)

end RingRs
